import Mathlib

/-!
Verification of the budget-simulation data-transformation core.

The repository's core logic is a pure data-transformation layer in two chart
components (`src/components/Charts.tsx` and the unnamed chart component in
`src/unnamed/part_000`): an aggregator reducing budget lines into per-category
summaries, view transformers (delta bars, treemap, 100%-stacked rows,
waterfall), and axis formatters.

Embedding decisions:
* JavaScript numbers are modelled as exact rationals (`ℚ`).  `Math.round x`
  on an exact rational is `⌊x + 1/2⌋` (nearest integer, ties toward `+∞`,
  per the ECMAScript specification of `Math.round`).
* `Array.prototype.sort` is stable (ES2019) and the comparators used
  (`(a, b) => b.final - a.final` and `(a, b) => b.adjustment - a.adjustment`)
  induce total preorders; a stable sort with respect to a total preorder has
  a unique result, which we model by Mathlib's stable `List.insertionSort`.
* The in-place `acc.find(...)`-then-mutate step of the aggregator's `reduce`
  is modelled by updating the first list entry whose `name` matches.
* Presentational fields (colors, the `fill` attribute, the `uv`/`size`
  recharts keys, the stacked rows' constant `name` labels) are omitted: they
  carry no numeric content.
-/

namespace BudgetShifter

/-- Input record: `{ category, originalAmount, adjustment }` (see `types.ts`
usage in both chart components). -/
structure BudgetLine where
  category : String
  originalAmount : ℚ
  adjustment : ℚ
deriving DecidableEq

/-- Aggregated record `{ name, original, final, adjustment }` built by the
`reduce` in `aggregatedData`. -/
structure CategorySummary where
  name : String
  original : ℚ
  final : ℚ
  adjustment : ℚ
deriving DecidableEq

/-- The helper `round` of both chart components:
`Math.round(val * factor) / factor` with `factor = Math.pow(10, decimalPrecision)`.
`Math.round` on an exact value is `⌊val + 1/2⌋` (ties toward positive
infinity). -/
def round (p : ℕ) (val : ℚ) : ℚ :=
  ((val * 10 ^ p + 1 / 2).floor : ℚ) / 10 ^ p

/-- One line of `aggregatedData`'s mutation branch: the object found by
`acc.find` is updated in place with re-rounded accumulations. -/
def applyLine (p : ℕ) (curr : BudgetLine) (s : CategorySummary) : CategorySummary :=
  { s with
    original := round p (s.original + curr.originalAmount)
    final := round p (s.final + round p (curr.originalAmount + curr.adjustment))
    adjustment := round p (s.adjustment + curr.adjustment) }

/-- Update the first summary whose `name` matches `curr.category` (the object
returned by `acc.find` is mutated in place in the source). -/
def updateFirst (p : ℕ) (curr : BudgetLine) : List CategorySummary → List CategorySummary
  | [] => []
  | s :: rest =>
    if s.name = curr.category then applyLine p curr s :: rest
    else s :: updateFirst p curr rest

/-- The summary pushed by the `else` branch of the reducer. -/
def newEntry (p : ℕ) (curr : BudgetLine) : CategorySummary :=
  { name := curr.category
    original := round p curr.originalAmount
    final := round p (curr.originalAmount + curr.adjustment)
    adjustment := round p curr.adjustment }

/-- One step of the `data.reduce((acc, curr) => ..., [])` aggregation. -/
def aggStep (p : ℕ) (acc : List CategorySummary) (curr : BudgetLine) : List CategorySummary :=
  if acc.any fun s => decide (s.name = curr.category) then updateFirst p curr acc
  else acc ++ [newEntry p curr]

/-- The `aggregatedData` reduce of both chart components. -/
def aggregatedData (p : ℕ) (data : List BudgetLine) : List CategorySummary :=
  data.foldl (aggStep p) []

/-- The synthetic-investment injection of `part_000` (lines 67-75):
`if (newInvestment && newInvestment > 0) aggregatedData.push({...})`. -/
def aggregatedWithInvestment (p : ℕ) (data : List BudgetLine) (newInvestment : ℚ) :
    List CategorySummary :=
  if 0 < newInvestment then
    aggregatedData p data ++
      [{ name := "Nieuwe Investering", original := 0,
         final := round p newInvestment, adjustment := round p newInvestment }]
  else aggregatedData p data

/-- Comparator preorder of `(a, b) => b.final - a.final` (descending by
`final`): `a` may stay before `b` iff `b.final ≤ a.final`. -/
def finalGE (a b : CategorySummary) : Prop := b.final ≤ a.final

instance : DecidableRel finalGE := fun a b =>
  inferInstanceAs (Decidable (b.final ≤ a.final))

instance : IsTotal CategorySummary finalGE :=
  ⟨fun a b => le_total b.final a.final⟩

instance : IsTrans CategorySummary finalGE :=
  ⟨fun _ _ _ hab hbc => le_trans hbc hab⟩

/-- Comparator preorder of `(a, b) => b.adjustment - a.adjustment`
(descending by `adjustment`). -/
def adjGE (a b : CategorySummary) : Prop := b.adjustment ≤ a.adjustment

instance : DecidableRel adjGE := fun a b =>
  inferInstanceAs (Decidable (b.adjustment ≤ a.adjustment))

instance : IsTotal CategorySummary adjGE :=
  ⟨fun a b => le_total b.adjustment a.adjustment⟩

instance : IsTrans CategorySummary adjGE :=
  ⟨fun _ _ _ hab hbc => le_trans hbc hab⟩

/-- The `aggregatedData.sort((a, b) => b.final - a.final)` of `part_000`
line 78 (stable sort, modelled by insertion sort). -/
def sortByFinalDesc (l : List CategorySummary) : List CategorySummary :=
  l.insertionSort finalGE

/-- Full derived summary list of `part_000`: aggregate, inject the optional
investment, sort descending by `final`. -/
def fullAggregated (p : ℕ) (data : List BudgetLine) (newInvestment : ℚ) :
    List CategorySummary :=
  sortByFinalDesc (aggregatedWithInvestment p data newInvestment)

/-- The `deltaData` transformer of `Charts.tsx` (lines 51-53): keep active
shifts (`Math.abs(d.adjustment) > 0`), sort descending by `adjustment`. -/
def deltaData (summaries : List CategorySummary) : List CategorySummary :=
  (summaries.filter fun d => decide (0 < |d.adjustment|)).insertionSort adjGE

/-- The `totalData` transformer of `Charts.tsx` (line 56): sort descending by
`final`. -/
def totalData (summaries : List CategorySummary) : List CategorySummary :=
  summaries.insertionSort finalGE

/-- The input lines belonging to one category. -/
def categoryLines (c : String) (data : List BudgetLine) : List BudgetLine :=
  data.filter fun l => decide (l.category = c)

/-- Sum of a per-line quantity, each line's value rounded once. -/
def roundSum (p : ℕ) (f : BudgetLine → ℚ) (ls : List BudgetLine) : ℚ :=
  (ls.map fun l => round p (f l)).sum

/-- Summary predicted by line-wise rounding followed by exact summation (the
specification-level description of the aggregator, used for the refinement
claim). -/
def specSummary (p : ℕ) (data : List BudgetLine) (c : String) : CategorySummary :=
  { name := c
    original := roundSum p (fun l => l.originalAmount) (categoryLines c data)
    final := roundSum p (fun l => l.originalAmount + l.adjustment) (categoryLines c data)
    adjustment := roundSum p (fun l => l.adjustment) (categoryLines c data) }

/-- Category names in first-seen order. -/
def seenCategories (data : List BudgetLine) : List String :=
  data.foldl (fun acc l => if l.category ∈ acc then acc else acc ++ [l.category]) []

/-- A rational is exact at precision `p` when it is an integer multiple of
`10 ^ (-p)`. -/
def isExact (p : ℕ) (x : ℚ) : Prop := ∃ z : ℤ, x = (z : ℚ) / 10 ^ p

/-- The `treemapData` builder of `part_000` (lines 84-86): drop non-positive
finals, render each remaining summary with `size := final`. -/
def treemapData (summaries : List CategorySummary) : List (CategorySummary × ℚ) :=
  (summaries.filter fun d => decide (0 < d.final)).map fun d => (d, d.final)

/-- JavaScript dynamic property assignment `row[k] = v` on an object modelled
as an ordered association list: overwrite the existing key or append. -/
def setKey (row : List (String × ℚ)) (k : String) (v : ℚ) : List (String × ℚ) :=
  if row.any fun kv => decide (kv.1 = k) then
    row.map fun kv => if kv.1 = k then (k, v) else kv
  else row ++ [(k, v)]

/-- One iteration of the `aggregatedData.forEach` loop of `getStackedData`:
write the positive `original` into the first row and the positive `final`
into the second. -/
def stackedStep (rows : List (String × ℚ) × List (String × ℚ)) (item : CategorySummary) :
    List (String × ℚ) × List (String × ℚ) :=
  (if 0 < item.original then setKey rows.1 item.name item.original else rows.1,
   if 0 < item.final then setKey rows.2 item.name item.final else rows.2)

/-- The `getStackedData` builder of `part_000` (lines 91-101): two rows keyed
by category name (their constant `name` labels "Origineel Budget" and
"Nieuw Budget" are presentational and omitted); only positive amounts are
written, per row. -/
def getStackedData (summaries : List CategorySummary) :
    List (String × ℚ) × List (String × ℚ) :=
  summaries.foldl stackedStep ([], [])

/-- Waterfall chart point: a `total` column (`uv`) or a floating `step` bar
(`range = [rangeMin, rangeMax]` with its `adjustment`); the `fill` color is
presentational and omitted. -/
inductive WaterfallPoint where
  | total (name : String) (uv : ℚ)
  | step (name : String) (rangeMin rangeMax adjustment : ℚ)
deriving DecidableEq

/-- The `steps.forEach` loop of `getWaterfallData`: emit one floating bar per
step and thread the re-rounded running total; returns the emitted points and
the final running total. -/
def waterfallSteps (p : ℕ) (running : ℚ) : List CategorySummary → List WaterfallPoint × ℚ
  | [] => ([], running)
  | s :: rest =>
    let newTotal := round p (running + s.adjustment)
    let next := waterfallSteps p newTotal rest
    (WaterfallPoint.step s.name (min running newTotal) (max running newTotal) s.adjustment
        :: next.1,
      next.2)

/-- The `getWaterfallData` builder of `part_000` (lines 105-157): start total,
non-zero steps sorted descending by adjustment, end total. -/
def getWaterfallData (p : ℕ) (summaries : List CategorySummary) : List WaterfallPoint :=
  let totalOriginal := round p (summaries.foldl (fun acc cur => acc + cur.original) 0)
  let steps := (summaries.filter fun d => decide (d.adjustment ≠ 0)).insertionSort adjGE
  WaterfallPoint.total "Start (Origineel)" totalOriginal ::
    (waterfallSteps p totalOriginal steps).1 ++
      [WaterfallPoint.total "Eind (Nieuw)" (waterfallSteps p totalOriginal steps).2]

/-- A list of points is a chain of floating step bars from running total `r`
to running total `rEnd`: every point is a `step` whose `[rangeMin, rangeMax]`
is `[min prev new, max prev new]` for consecutive re-rounded running totals. -/
def stepChain (p : ℕ) : ℚ → List WaterfallPoint → ℚ → Prop
  | r, [], rEnd => rEnd = r
  | r, WaterfallPoint.step _ lo hi a :: rest, rEnd =>
    lo = min r (round p (r + a)) ∧ hi = max r (round p (r + a)) ∧
      stepChain p (round p (r + a)) rest rEnd
  | _, WaterfallPoint.total _ _ :: _, _ => False

/-- Smallest number of decimal digits (at most `fuel` more) that makes the
denominator `den` divide a power of ten, if any. -/
def decimalDigitsAux : ℕ → ℕ → ℕ → Option ℕ
  | 0, _, _ => none
  | fuel + 1, den, f => if 10 ^ f % den = 0 then some f else decimalDigitsAux fuel den (f + 1)

/-- Left-pad a digit string with zeros to width `f`. -/
def padZeros (f : ℕ) (s : String) : String :=
  String.mk (List.replicate (f - s.length) '0') ++ s

/-- Decimal rendering of the natural `n` scaled down by `f` digits (the digit
work of `Number.prototype.toFixed` after sign and rounding). -/
def toFixedNat (f : ℕ) (n : ℕ) : String :=
  if f = 0 then toString n
  else toString (n / 10 ^ f) ++ "." ++ padZeros f (toString (n % 10 ^ f))

/-- JavaScript `Number.prototype.toFixed(f)` on an exact rational: choose the
integer `n` minimising `|n / 10^f - x|`, ties to the larger `n`, on the
absolute value; prepend the sign. -/
def ratToFixed (f : ℕ) (x : ℚ) : String :=
  if x < 0 then "-" ++ toFixedNat f ((-x * 10 ^ f + 1 / 2).floor.toNat)
  else toFixedNat f ((x * 10 ^ f + 1 / 2).floor.toNat)

/-- JavaScript `Number.prototype.toString` on the exact decimal values that
occur in this core: plain (non-exponent) decimal notation with the shortest
fractional part, integers without a fractional part.  (Values whose
denominator divides no power of ten cannot arise from decimal inputs; they
are rendered as a fraction as a total-function fallback.) -/
def ratToString (x : ℚ) : String :=
  let sign := if x < 0 then "-" else ""
  let a := |x|
  match decimalDigitsAux (a.den + 1) a.den 0 with
  | some 0 => sign ++ toString a.num
  | some f =>
    let scaled := (a.num * 10 ^ f) / (a.den : ℤ)
    sign ++ toString (scaled / 10 ^ f) ++ "." ++ padZeros f (toString (scaled % 10 ^ f))
  | none => sign ++ toString a.num ++ "/" ++ toString a.den

/-- The `formatValue` axis formatter of both chart components. -/
def formatValue (showInThousands : Bool) (val : ℚ) : String :=
  if val = 0 then "0"
  else if showInThousands then ratToFixed 1 (val / 1000) ++ "k"
  else if 1000000 ≤ |val| then ratToFixed 1 (val / 1000000) ++ "M"
  else if 1000 ≤ |val| then ratToFixed 0 (val / 1000) ++ "k"
  else ratToString val

/-- The worked example of the specification:
lines `[{A,100,10},{A,50,-5},{B,200,0}]`. -/
def exampleLines : List BudgetLine :=
  [⟨"A", 100, 10⟩, ⟨"A", 50, -5⟩, ⟨"B", 200, 0⟩]

/-- Four lines of 0.4 in distinct categories: at precision 0 every line-final
rounds to 0 while the overall total rounds to 2. -/
def c4Lines : List BudgetLine :=
  [⟨"A", 2 / 5, 0⟩, ⟨"B", 2 / 5, 0⟩, ⟨"C", 2 / 5, 0⟩, ⟨"D", 2 / 5, 0⟩]

/-- The rounding helper written with the mathematical floor. -/
theorem round_eq_floor (p : ℕ) (val : ℚ) :
    round p val = (⌊val * 10 ^ p + 1 / 2⌋ : ℚ) / 10 ^ p := by
  rw [round, Rat.floor_def', ← Rat.floor_def]

/-! Exactness theory for `round`: an accumulator that is already an integer
multiple of `10 ^ (-p)` absorbs further rounded additions exactly.  This is
the mechanism behind the re-rounding accumulation of `aggregatedData` and the
waterfall running total. -/

theorem ten_pow_pos (p : ℕ) : (0 : ℚ) < 10 ^ p := by positivity

theorem isExact_round (p : ℕ) (x : ℚ) : isExact p (round p x) :=
  ⟨_, round_eq_floor p x⟩

theorem isExact_zero (p : ℕ) : isExact p 0 := ⟨0, by simp⟩

theorem isExact_add {p : ℕ} {x y : ℚ} (hx : isExact p x) (hy : isExact p y) :
    isExact p (x + y) := by
  obtain ⟨a, rfl⟩ := hx
  obtain ⟨b, rfl⟩ := hy
  exact ⟨a + b, by push_cast; ring⟩

theorem isExact_sum {p : ℕ} {l : List ℚ} (h : ∀ x ∈ l, isExact p x) :
    isExact p l.sum := by
  induction l with
  | nil => simpa using isExact_zero p
  | cons a l ih =>
    rw [List.sum_cons]
    exact isExact_add (h a (List.mem_cons_self a l))
      (ih fun x hx => h x (List.mem_cons_of_mem a hx))

/-- Shift rule: rounding an exact accumulator plus a raw value adds the
rounded raw value exactly. -/
theorem round_add_of_isExact {p : ℕ} {d : ℚ} (hd : isExact p d) (x : ℚ) :
    round p (d + x) = d + round p x := by
  obtain ⟨z, rfl⟩ := hd
  have h10 : ((10 : ℚ) ^ p) ≠ 0 := (ten_pow_pos p).ne'
  rw [round_eq_floor, round_eq_floor]
  have harg : ((z : ℚ) / 10 ^ p + x) * 10 ^ p + 1 / 2 = (z : ℚ) + (x * 10 ^ p + 1 / 2) := by
    field_simp
    ring
  rw [harg, Int.floor_int_add]
  push_cast
  field_simp

/-- Rounding is the identity on exact values. -/
theorem round_of_isExact {p : ℕ} {x : ℚ} (hx : isExact p x) : round p x = x := by
  obtain ⟨z, rfl⟩ := hx
  have h10 : ((10 : ℚ) ^ p) ≠ 0 := (ten_pow_pos p).ne'
  rw [round_eq_floor]
  have harg : (z : ℚ) / 10 ^ p * 10 ^ p + 1 / 2 = (z : ℚ) + 1 / 2 := by field_simp
  rw [harg, add_comm, Int.floor_add_int]
  norm_num

theorem round_round (p : ℕ) (x : ℚ) : round p (round p x) = round p x :=
  round_of_isExact (isExact_round p x)

/-- One application of `round` moves a value by at most half a unit of the
precision. -/
theorem abs_round_sub_le (p : ℕ) (x : ℚ) : |round p x - x| ≤ 1 / (2 * 10 ^ p) := by
  have h10 : (0 : ℚ) < 10 ^ p := ten_pow_pos p
  rw [round_eq_floor]
  have hx : x = x * 10 ^ p / 10 ^ p := by field_simp
  have h1 : ((⌊x * 10 ^ p + 1 / 2⌋ : ℚ)) ≤ x * 10 ^ p + 1 / 2 := Int.floor_le _
  have h2 : x * 10 ^ p + 1 / 2 < (⌊x * 10 ^ p + 1 / 2⌋ : ℚ) + 1 := Int.lt_floor_add_one _
  have habs : |((⌊x * 10 ^ p + 1 / 2⌋ : ℚ)) - x * 10 ^ p| ≤ 1 / 2 := by
    rw [abs_le]
    constructor <;> linarith
  calc |((⌊x * 10 ^ p + 1 / 2⌋ : ℚ)) / 10 ^ p - x|
      = |((⌊x * 10 ^ p + 1 / 2⌋ : ℚ)) - x * 10 ^ p| / 10 ^ p := by
        rw [hx]
        rw [div_sub_div_same, abs_div, abs_of_pos h10]
        rw [← hx]
    _ ≤ (1 / 2) / 10 ^ p := by gcongr
    _ = 1 / (2 * 10 ^ p) := by ring

/-! Characterization of the aggregator: per first-seen category it computes
exactly the sums of the once-rounded per-line values. -/

theorem aggregatedData_append_singleton (p : ℕ) (data : List BudgetLine) (b : BudgetLine) :
    aggregatedData p (data ++ [b]) = aggStep p (aggregatedData p data) b := by
  simp [aggregatedData, List.foldl_append]

theorem seenCategories_append_singleton (data : List BudgetLine) (b : BudgetLine) :
    seenCategories (data ++ [b]) =
      if b.category ∈ seenCategories data then seenCategories data
      else seenCategories data ++ [b.category] := by
  simp [seenCategories, List.foldl_append]

theorem mem_seenCategories_forall (data : List BudgetLine) :
    ∀ c, c ∈ seenCategories data ↔ c ∈ data.map fun l => l.category := by
  induction data using List.reverseRecOn with
  | nil => simp [seenCategories]
  | append_singleton l b ih =>
    intro c
    rw [seenCategories_append_singleton]
    by_cases hb : b.category ∈ seenCategories l
    · rw [if_pos hb, ih c]
      have hbc : b.category ∈ l.map fun x => x.category := (ih b.category).mp hb
      simp only [List.map_append, List.mem_append, List.map_cons, List.map_nil,
        List.mem_singleton]
      constructor
      · exact Or.inl
      · rintro (h | rfl)
        · exact h
        · exact hbc
    · rw [if_neg hb]
      simp only [List.mem_append, List.mem_singleton, List.map_append, List.map_cons,
        List.map_nil]
      rw [ih c]

theorem mem_seenCategories {data : List BudgetLine} {c : String} :
    c ∈ seenCategories data ↔ c ∈ data.map fun l => l.category :=
  mem_seenCategories_forall data c

theorem nodup_seenCategories (data : List BudgetLine) : (seenCategories data).Nodup := by
  induction data using List.reverseRecOn with
  | nil => simp [seenCategories]
  | append_singleton l b ih =>
    rw [seenCategories_append_singleton]
    by_cases hb : b.category ∈ seenCategories l
    · rwa [if_pos hb]
    · rw [if_neg hb]
      refine ih.append (List.nodup_singleton _) ?_
      intro a ha hmem
      rw [List.mem_singleton] at hmem
      exact hb (hmem ▸ ha)

theorem any_name_map {cats : List String} {g : String → CategorySummary}
    (hg : ∀ c, (g c).name = c) (c : String) :
    ((cats.map g).any fun s => decide (s.name = c)) = true ↔ c ∈ cats := by
  simp [List.any_map, Function.comp_def, hg, List.any_eq_true]

theorem updateFirst_map (p : ℕ) (b : BudgetLine) {cats : List String}
    {g : String → CategorySummary} (hg : ∀ c, (g c).name = c) (hnd : cats.Nodup) :
    updateFirst p b (cats.map g) =
      cats.map fun c => if c = b.category then applyLine p b (g c) else g c := by
  induction cats with
  | nil => simp [updateFirst]
  | cons c cats ih =>
    rw [List.map_cons, List.map_cons, updateFirst, hg]
    by_cases hc : c = b.category
    · rw [if_pos hc, if_pos hc]
      congr 1
      refine (List.map_congr_left ?_).symm
      intro a ha
      have : a ≠ b.category := fun hab => (List.nodup_cons.mp hnd).1 ((hab.trans hc.symm) ▸ ha)
      rw [if_neg this]
    · rw [if_neg hc, if_neg hc, ih (List.nodup_cons.mp hnd).2]

theorem categoryLines_append (c : String) (l : List BudgetLine) (b : BudgetLine) :
    categoryLines c (l ++ [b]) =
      categoryLines c l ++ if b.category = c then [b] else [] := by
  by_cases h : b.category = c <;> simp [categoryLines, List.filter_append, h]

theorem roundSum_append_singleton (p : ℕ) (f : BudgetLine → ℚ) (ls : List BudgetLine)
    (b : BudgetLine) :
    roundSum p f (ls ++ [b]) = roundSum p f ls + round p (f b) := by
  simp [roundSum]

theorem isExact_roundSum (p : ℕ) (f : BudgetLine → ℚ) (ls : List BudgetLine) :
    isExact p (roundSum p f ls) := by
  refine isExact_sum ?_
  intro x hx
  obtain ⟨l, _, rfl⟩ := List.mem_map.mp hx
  exact isExact_round p (f l)

theorem specSummary_append_ne {c : String} {b : BudgetLine} (h : b.category ≠ c)
    (p : ℕ) (l : List BudgetLine) :
    specSummary p (l ++ [b]) c = specSummary p l c := by
  simp [specSummary, categoryLines_append, h]

theorem applyLine_spec (p : ℕ) (l : List BudgetLine) (b : BudgetLine) :
    applyLine p b (specSummary p l b.category) = specSummary p (l ++ [b]) b.category := by
  have hcat : categoryLines b.category (l ++ [b]) = categoryLines b.category l ++ [b] := by
    rw [categoryLines_append, if_pos rfl]
  simp only [applyLine, specSummary, hcat, roundSum_append_singleton,
    CategorySummary.mk.injEq]
  refine ⟨trivial, ?_, ?_, ?_⟩
  · exact round_add_of_isExact (isExact_roundSum p _ _) _
  · rw [round_add_of_isExact (isExact_roundSum p _ _), round_round]
  · exact round_add_of_isExact (isExact_roundSum p _ _) _

theorem newEntry_spec (p : ℕ) (l : List BudgetLine) (b : BudgetLine)
    (h : ¬ b.category ∈ l.map fun x => x.category) :
    newEntry p b = specSummary p (l ++ [b]) b.category := by
  have hnil : categoryLines b.category l = [] := by
    rw [categoryLines, List.filter_eq_nil_iff]
    intro a ha
    simp only [decide_eq_true_eq]
    intro hcat
    exact h (List.mem_map.mpr ⟨a, ha, hcat⟩)
  simp [newEntry, specSummary, categoryLines_append, hnil, roundSum]

/-- The aggregator equals, per first-seen category, the exact sum of the
once-rounded per-line contributions. -/
theorem aggregatedData_eq_spec (p : ℕ) (data : List BudgetLine) :
    aggregatedData p data = (seenCategories data).map (specSummary p data) := by
  induction data using List.reverseRecOn with
  | nil => simp [aggregatedData, seenCategories]
  | append_singleton l b ih =>
    have hg : ∀ c, (specSummary p l c).name = c := fun _ => rfl
    rw [aggregatedData_append_singleton, ih, seenCategories_append_singleton, aggStep]
    by_cases hb : b.category ∈ seenCategories l
    · rw [if_pos hb, if_pos ((any_name_map hg b.category).mpr hb)]
      rw [updateFirst_map p b hg (nodup_seenCategories l)]
      refine List.map_congr_left ?_
      intro c _
      by_cases hc : c = b.category
      · rw [if_pos hc, hc, applyLine_spec]
      · rw [if_neg hc, specSummary_append_ne (fun hbc => hc hbc.symm)]
    · have hany : ¬ ((((seenCategories l).map (specSummary p l)).any
          fun s => decide (s.name = b.category)) = true) := by
        rw [any_name_map hg b.category]
        exact hb
      rw [if_neg hb, if_neg hany, List.map_append, List.map_singleton]
      congr 1
      · refine List.map_congr_left ?_
        intro c hc
        have : b.category ≠ c := fun hbc => hb (hbc ▸ hc)
        exact (specSummary_append_ne this p l).symm
      · rw [newEntry_spec p l b (fun h => hb (mem_seenCategories.mpr h))]

/-! Permutation invariance of the aggregator, and sum bookkeeping. -/

theorem specSummary_perm {l₁ l₂ : List BudgetLine} (h : l₁.Perm l₂) (p : ℕ) (c : String) :
    specSummary p l₁ c = specSummary p l₂ c := by
  have hcl : (categoryLines c l₁).Perm (categoryLines c l₂) := h.filter _
  have hsum : ∀ f : BudgetLine → ℚ,
      roundSum p f (categoryLines c l₁) = roundSum p f (categoryLines c l₂) :=
    fun f => (hcl.map _).sum_eq
  simp [specSummary, hsum]

theorem seenCategories_perm {l₁ l₂ : List BudgetLine} (h : l₁.Perm l₂) :
    (seenCategories l₁).Perm (seenCategories l₂) := by
  rw [List.perm_ext_iff_of_nodup (nodup_seenCategories l₁) (nodup_seenCategories l₂)]
  intro c
  rw [mem_seenCategories, mem_seenCategories]
  exact (h.map _).mem_iff

theorem aggregatedData_names (p : ℕ) (data : List BudgetLine) :
    (aggregatedData p data).map (fun s => s.name) = seenCategories data := by
  rw [aggregatedData_eq_spec, List.map_map]
  simp [Function.comp_def, specSummary]

theorem sum_map_filter_add {α : Type} (g : α → ℚ) (q : α → Bool) (l : List α) :
    ((l.filter q).map g).sum + ((l.filter fun a => !(q a)).map g).sum = (l.map g).sum := by
  induction l with
  | nil => simp
  | cons a l ih =>
    cases h : q a
    · simp only [List.filter_cons, h, Bool.not_false, if_true, if_neg Bool.false_ne_true,
        List.map_cons, List.sum_cons]
      linarith
    · simp only [List.filter_cons, h, Bool.not_true, if_true, if_neg Bool.false_ne_true,
        List.map_cons, List.sum_cons]
      linarith

theorem sum_fiberwise (g : BudgetLine → ℚ) :
    ∀ (cats : List String) (data : List BudgetLine), cats.Nodup →
      (∀ l ∈ data, l.category ∈ cats) →
      (cats.map fun c => ((categoryLines c data).map g).sum).sum = (data.map g).sum := by
  intro cats
  induction cats with
  | nil =>
    intro data _ hall
    have hdata : data = [] :=
      List.eq_nil_iff_forall_not_mem.mpr fun l hl => by simpa using hall l hl
    simp [hdata]
  | cons c cats ih =>
    intro data hnd hall
    rw [List.map_cons, List.sum_cons]
    have hkey : (cats.map fun c' => ((categoryLines c' data).map g).sum).sum =
        (cats.map fun c' =>
          ((categoryLines c' (data.filter fun l => !(decide (l.category = c)))).map g).sum).sum := by
      refine congrArg _ (List.map_congr_left ?_)
      intro c' hc'
      have hne : c' ≠ c := fun h => (List.nodup_cons.mp hnd).1 (h ▸ hc')
      have : categoryLines c' (data.filter fun l => !(decide (l.category = c))) =
          categoryLines c' data := by
        rw [categoryLines, categoryLines, List.filter_filter]
        refine List.filter_congr ?_
        intro a _
        by_cases hac : a.category = c'
        · simp [hac, hne]
        · simp [hac]
      rw [this]
    have hmem : ∀ l ∈ data.filter fun l => !(decide (l.category = c)), l.category ∈ cats := by
      intro l hl
      obtain ⟨hml, hpl⟩ := List.mem_filter.mp hl
      have hne : l.category ≠ c := by simpa using hpl
      rcases List.mem_cons.mp (hall l hml) with hcase | hcase
      · exact absurd hcase hne
      · exact hcase
    rw [hkey, ih _ (List.nodup_cons.mp hnd).2 hmem]
    have hsplit := sum_map_filter_add g (fun l => decide (l.category = c)) data
    have hc : data.filter (fun l => decide (l.category = c)) = categoryLines c data := rfl
    rw [hc] at hsplit
    linarith

theorem sum_final_aggregated (p : ℕ) (data : List BudgetLine) :
    ((aggregatedData p data).map fun s => s.final).sum =
      (data.map fun l => round p (l.originalAmount + l.adjustment)).sum := by
  rw [aggregatedData_eq_spec, List.map_map]
  have hfun : ((fun s => s.final) ∘ specSummary p data) = fun c =>
      ((categoryLines c data).map fun l =>
        round p (l.originalAmount + l.adjustment)).sum := by
    funext c
    simp [specSummary, roundSum, Function.comp_def]
  rw [hfun]
  exact sum_fiberwise _ (seenCategories data) data (nodup_seenCategories data)
    fun l hl => mem_seenCategories.mpr (List.mem_map.mpr ⟨l, hl, rfl⟩)

theorem sum_map_add {α : Type} (f g : α → ℚ) (l : List α) :
    (l.map fun a => f a + g a).sum = (l.map f).sum + (l.map g).sum := by
  induction l with
  | nil => simp
  | cons a l ih =>
    simp only [List.map_cons, List.sum_cons, ih]
    ring

theorem abs_sum_round_sub_le (p : ℕ) (xs : List ℚ) :
    |(xs.map fun x => round p x).sum - xs.sum| ≤ xs.length / (2 * 10 ^ p) := by
  induction xs with
  | nil => simp
  | cons a xs ih =>
    simp only [List.map_cons, List.sum_cons, List.length_cons]
    have h1 := abs_round_sub_le p a
    have htri : |round p a + (xs.map fun x => round p x).sum - (a + xs.sum)| ≤
        |round p a - a| + |(xs.map fun x => round p x).sum - xs.sum| := by
      have : round p a + (xs.map fun x => round p x).sum - (a + xs.sum) =
          (round p a - a) + ((xs.map fun x => round p x).sum - xs.sum) := by ring
      rw [this]
      exact abs_add _ _
    have hlen : ((xs.length + 1 : ℕ) : ℚ) = (xs.length : ℚ) + 1 := by push_cast; ring
    rw [hlen]
    have h10 : (0 : ℚ) < 2 * 10 ^ p := by positivity
    calc |round p a + (xs.map fun x => round p x).sum - (a + xs.sum)|
        ≤ |round p a - a| + |(xs.map fun x => round p x).sum - xs.sum| := htri
      _ ≤ 1 / (2 * 10 ^ p) + (xs.length : ℚ) / (2 * 10 ^ p) := add_le_add h1 ih
      _ = ((xs.length : ℚ) + 1) / (2 * 10 ^ p) := by ring

/-! Waterfall transformer lemmas. -/

theorem foldl_add_original (summaries : List CategorySummary) (init : ℚ) :
    summaries.foldl (fun acc cur => acc + cur.original) init =
      init + (summaries.map fun s => s.original).sum := by
  induction summaries generalizing init with
  | nil => simp
  | cons a l ih =>
    simp only [List.foldl_cons, List.map_cons, List.sum_cons, ih]
    ring

theorem waterfallSteps_chain (p : ℕ) :
    ∀ (steps : List CategorySummary) (r : ℚ),
      stepChain p r (waterfallSteps p r steps).1 (waterfallSteps p r steps).2 := by
  intro steps
  induction steps with
  | nil =>
    intro r
    simp [waterfallSteps, stepChain]
  | cons s rest ih =>
    intro r
    simp only [waterfallSteps, stepChain]
    exact ⟨trivial, trivial, ih _⟩

theorem waterfallSteps_end_exact (p : ℕ) :
    ∀ (steps : List CategorySummary) (r : ℚ), isExact p r →
      (∀ s ∈ steps, round p s.adjustment = s.adjustment) →
      (waterfallSteps p r steps).2 = r + (steps.map fun s => s.adjustment).sum := by
  intro steps
  induction steps with
  | nil =>
    intro r _ _
    simp [waterfallSteps]
  | cons s rest ih =>
    intro r hr hall
    have hs : round p s.adjustment = s.adjustment := hall s (List.mem_cons_self s rest)
    have hnew : round p (r + s.adjustment) = r + s.adjustment := by
      rw [round_add_of_isExact hr, hs]
    have hex : isExact p (r + s.adjustment) := by
      refine isExact_add hr ?_
      rw [← hs]
      exact isExact_round p s.adjustment
    simp only [waterfallSteps, List.map_cons, List.sum_cons]
    rw [hnew, ih _ hex fun x hx => hall x (List.mem_cons_of_mem s hx)]
    ring

theorem waterfallSteps_end_bound (p : ℕ) :
    ∀ (steps : List CategorySummary) (r : ℚ),
      |(waterfallSteps p r steps).2 - (r + (steps.map fun s => s.adjustment).sum)| ≤
        steps.length / (2 * 10 ^ p) := by
  intro steps
  induction steps with
  | nil =>
    intro r
    simp [waterfallSteps]
  | cons s rest ih =>
    intro r
    simp only [waterfallSteps, List.map_cons, List.sum_cons, List.length_cons]
    have h1 := abs_round_sub_le p (r + s.adjustment)
    have h2 := ih (round p (r + s.adjustment))
    have htri : |(waterfallSteps p (round p (r + s.adjustment)) rest).2 -
        (r + (s.adjustment + (rest.map fun x => x.adjustment).sum))| ≤
        |(waterfallSteps p (round p (r + s.adjustment)) rest).2 -
          (round p (r + s.adjustment) + (rest.map fun x => x.adjustment).sum)| +
        |round p (r + s.adjustment) - (r + s.adjustment)| := by
      have harr : (waterfallSteps p (round p (r + s.adjustment)) rest).2 -
          (r + (s.adjustment + (rest.map fun x => x.adjustment).sum)) =
          ((waterfallSteps p (round p (r + s.adjustment)) rest).2 -
            (round p (r + s.adjustment) + (rest.map fun x => x.adjustment).sum)) +
          (round p (r + s.adjustment) - (r + s.adjustment)) := by ring
      rw [harr]
      exact abs_add _ _
    have hlen : ((rest.length + 1 : ℕ) : ℚ) = (rest.length : ℚ) + 1 := by push_cast; ring
    rw [hlen]
    calc |(waterfallSteps p (round p (r + s.adjustment)) rest).2 -
        (r + (s.adjustment + (rest.map fun x => x.adjustment).sum))|
        ≤ |(waterfallSteps p (round p (r + s.adjustment)) rest).2 -
            (round p (r + s.adjustment) + (rest.map fun x => x.adjustment).sum)| +
          |round p (r + s.adjustment) - (r + s.adjustment)| := htri
      _ ≤ (rest.length : ℚ) / (2 * 10 ^ p) + 1 / (2 * 10 ^ p) := add_le_add h2 h1
      _ = ((rest.length : ℚ) + 1) / (2 * 10 ^ p) := by ring

theorem sum_adjustment_filter_ne_zero (summaries : List CategorySummary) :
    ((summaries.filter fun d => decide (d.adjustment ≠ 0)).map fun s => s.adjustment).sum =
      (summaries.map fun s => s.adjustment).sum := by
  induction summaries with
  | nil => simp
  | cons a l ih =>
    simp only [List.filter_cons]
    by_cases h : a.adjustment = 0
    · rw [if_neg (by simp [h]), ih, List.map_cons, List.sum_cons, h, zero_add]
    · rw [if_pos (by simp [h])]
      simp only [List.map_cons, List.sum_cons, ih]

/-! Stacked-row and treemap lemmas. -/

theorem setKey_pos {row : List (String × ℚ)} (hrow : ∀ kv ∈ row, 0 < kv.2)
    {v : ℚ} (hv : 0 < v) (k : String) : ∀ kv ∈ setKey row k v, 0 < kv.2 := by
  intro kv hkv
  rw [setKey] at hkv
  by_cases h : (row.any fun kv => decide (kv.1 = k)) = true
  · rw [if_pos h] at hkv
    obtain ⟨kv0, hkv0, hmap⟩ := List.mem_map.mp hkv
    by_cases hk : kv0.1 = k
    · rw [if_pos hk] at hmap
      rw [← hmap]
      exact hv
    · rw [if_neg hk] at hmap
      rw [← hmap]
      exact hrow kv0 hkv0
  · rw [if_neg h] at hkv
    rcases List.mem_append.mp hkv with h1 | h1
    · exact hrow kv h1
    · rw [List.mem_singleton] at h1
      rw [h1]
      exact hv

theorem setKey_of_not_mem {row : List (String × ℚ)} {k : String}
    (h : ∀ kv ∈ row, kv.1 ≠ k) (v : ℚ) : setKey row k v = row ++ [(k, v)] := by
  rw [setKey, if_neg]
  rw [List.any_eq_true]
  rintro ⟨kv, hkv, hdec⟩
  exact h kv hkv (by simpa using hdec)

theorem stackedFold_fst :
    ∀ (s : List CategorySummary) (rows : List (String × ℚ) × List (String × ℚ)),
      (s.foldl stackedStep rows).1 =
        s.foldl (fun r item =>
          if 0 < item.original then setKey r item.name item.original else r) rows.1 := by
  intro s
  induction s with
  | nil => intro rows; rfl
  | cons b s ih =>
    intro rows
    rw [List.foldl_cons, List.foldl_cons, ih]
    rfl

theorem stackedFold_snd :
    ∀ (s : List CategorySummary) (rows : List (String × ℚ) × List (String × ℚ)),
      (s.foldl stackedStep rows).2 =
        s.foldl (fun r item =>
          if 0 < item.final then setKey r item.name item.final else r) rows.2 := by
  intro s
  induction s with
  | nil => intro rows; rfl
  | cons b s ih =>
    intro rows
    rw [List.foldl_cons, List.foldl_cons, ih]
    rfl

theorem rowFold_pos (f : CategorySummary → ℚ) :
    ∀ (s : List CategorySummary) (r : List (String × ℚ)), (∀ kv ∈ r, 0 < kv.2) →
      ∀ kv ∈ s.foldl (fun r item => if 0 < f item then setKey r item.name (f item) else r) r,
        0 < kv.2 := by
  intro s
  induction s with
  | nil => intro r hr; exact hr
  | cons b s ih =>
    intro r hr
    rw [List.foldl_cons]
    by_cases hb : 0 < f b
    · rw [if_pos hb]
      exact ih _ (setKey_pos hr hb b.name)
    · rw [if_neg hb]
      exact ih _ hr

theorem rowFold_eq (f : CategorySummary → ℚ) :
    ∀ (s : List CategorySummary) (r : List (String × ℚ)),
      ((s.map fun d => d.name).Nodup) →
      (∀ kv ∈ r, ∀ d ∈ s, kv.1 ≠ d.name) →
      s.foldl (fun r item => if 0 < f item then setKey r item.name (f item) else r) r =
        r ++ (s.filter fun d => decide (0 < f d)).map fun d => (d.name, f d) := by
  intro s
  induction s with
  | nil =>
    intro r _ _
    simp
  | cons b s ih =>
    intro r hnd hdis
    rw [List.foldl_cons, List.map_cons, List.nodup_cons] at *
    obtain ⟨hb, hnds⟩ := hnd
    by_cases hpos : 0 < f b
    · rw [if_pos hpos, setKey_of_not_mem (fun kv hkv => hdis kv hkv b (List.mem_cons_self b s))]
      have hdis2 : ∀ kv ∈ r ++ [(b.name, f b)], ∀ d ∈ s, kv.1 ≠ d.name := by
        intro kv hkv d hd
        rcases List.mem_append.mp hkv with hin | hin
        · exact hdis kv hin d (List.mem_cons_of_mem b hd)
        · rw [List.mem_singleton] at hin
          rw [hin]
          intro heq
          exact hb (List.mem_map.mpr ⟨d, hd, heq.symm⟩)
      rw [ih _ hnds hdis2, List.filter_cons, if_pos (by simpa using hpos), List.map_cons,
        List.append_assoc, List.singleton_append]
    · rw [if_neg hpos]
      have hdis2 : ∀ kv ∈ r, ∀ d ∈ s, kv.1 ≠ d.name :=
        fun kv hkv d hd => hdis kv hkv d (List.mem_cons_of_mem b hd)
      rw [ih _ hnds hdis2, List.filter_cons, if_neg (by simpa using hpos)]

/-! Formatter lemmas. -/

theorem ratFloor_eq (q : ℚ) : q.floor = ⌊q⌋ := by
  rw [Rat.floor_def', ← Rat.floor_def]

theorem int_toString_neg (z : ℤ) (hz : z < 0) : toString z = "-" ++ toString (-z) := by
  cases z with
  | ofNat n => exact absurd hz (by simp)
  | negSucc m => rfl

/-- On integral values `ratToString` produces the plain integer string, as
`Number.prototype.toString` does. -/
theorem ratToString_int (v : ℚ) (hden : v.den = 1) : ratToString v = toString v.num := by
  by_cases hv : v < 0
  · have hd2 : |v|.den = 1 := by rw [abs_of_neg hv, Rat.den_neg_eq_den, hden]
    have hn2 : |v|.num = -v.num := by rw [abs_of_neg hv, Rat.num_neg_eq_neg_num]
    rw [ratToString, if_pos hv, hd2, hn2]
    have hdig : decimalDigitsAux (1 + 1) 1 0 = some 0 := rfl
    rw [hdig]
    exact (int_toString_neg v.num (Rat.num_neg.mpr hv)).symm
  · have hd2 : |v|.den = 1 := by rw [abs_of_nonneg (not_lt.mp hv), hden]
    have hn2 : |v|.num = v.num := by rw [abs_of_nonneg (not_lt.mp hv)]
    rw [ratToString, if_neg hv, hd2, hn2]
    have hdig : decimalDigitsAux (1 + 1) 1 0 = some 0 := rfl
    rw [hdig]
    rfl

/-! Claim theorems. -/

/-- C1: Aggregation is order-independent: for every list of budget lines and
every precision, aggregating any permutation of the list yields the same
unordered collection of `CategorySummary` records (same
name/original/final/adjustment values, order disregarded), i.e. a permutation
of the original aggregation result. -/
theorem c1_aggregation_order_independent (p : ℕ) {l₁ l₂ : List BudgetLine}
    (h : l₁.Perm l₂) : (aggregatedData p l₁).Perm (aggregatedData p l₂) := by
  rw [aggregatedData_eq_spec, aggregatedData_eq_spec]
  have hfun : specSummary p l₁ = specSummary p l₂ := funext fun c => specSummary_perm h p c
  rw [hfun]
  exact (seenCategories_perm h).map _

/-- Witness for C1 at a concrete transposition of two lines. -/
theorem c1_aggregation_order_independent_witness :
    ([⟨"A", 1, 2⟩, ⟨"B", 3, 4⟩] : List BudgetLine).Perm [⟨"B", 3, 4⟩, ⟨"A", 1, 2⟩] ∧
      (aggregatedData 0 [⟨"A", 1, 2⟩, ⟨"B", 3, 4⟩]).Perm
        (aggregatedData 0 [⟨"B", 3, 4⟩, ⟨"A", 1, 2⟩]) :=
  ⟨List.Perm.swap _ _ _, c1_aggregation_order_independent 0 (List.Perm.swap _ _ _)⟩

/-- C10: the aggregator with per-step re-rounding is equivalent to rounding
each line once and summing exactly: every produced summary's `original`,
`final` and `adjustment` are the exact sums of the once-rounded per-line
`originalAmount`, `originalAmount + adjustment` and `adjustment` over exactly
that category's lines. -/
theorem c10_aggregator_refines_linewise_rounding (p : ℕ) (data : List BudgetLine)
    (s : CategorySummary) (hs : s ∈ aggregatedData p data) :
    s.original = roundSum p (fun l => l.originalAmount) (categoryLines s.name data) ∧
    s.final = roundSum p (fun l => l.originalAmount + l.adjustment)
        (categoryLines s.name data) ∧
    s.adjustment = roundSum p (fun l => l.adjustment) (categoryLines s.name data) := by
  rw [aggregatedData_eq_spec] at hs
  obtain ⟨c, _, rfl⟩ := List.mem_map.mp hs
  exact ⟨rfl, rfl, rfl⟩

/-- Witness for C10 on the specification's worked example. -/
theorem c10_aggregator_refines_linewise_rounding_witness :
    (⟨"A", 150, 155, 5⟩ : CategorySummary) ∈ aggregatedData 2 exampleLines ∧
      (⟨"A", 150, 155, 5⟩ : CategorySummary).original =
        roundSum 2 (fun l => l.originalAmount)
          (categoryLines (⟨"A", 150, 155, 5⟩ : CategorySummary).name exampleLines) := by
  have heval : aggregatedData 2 exampleLines =
      [⟨"A", 150, 155, 5⟩, ⟨"B", 200, 200, 0⟩] := by
    simp [exampleLines, aggregatedData, aggStep, newEntry, updateFirst, applyLine,
      round_eq_floor]
    norm_num
  have hmem : (⟨"A", 150, 155, 5⟩ : CategorySummary) ∈ aggregatedData 2 exampleLines := by
    rw [heval]
    exact List.mem_cons_self _ _
  exact ⟨hmem, (c10_aggregator_refines_linewise_rounding 2 exampleLines _ hmem).1⟩

/-- C3 counterexample: the rounding helper does not round ties away from
zero; at the claimed example input, round(-0.005, 2) is 0, not -0.01. -/
theorem c3_round_ties_counterexample :
    round 2 (-(1 / 200) : ℚ) = 0 ∧ round 2 (-(1 / 200) : ℚ) ≠ -(1 / 100) := by
  constructor
  · rw [round_eq_floor]
    norm_num
  · rw [round_eq_floor]
    norm_num

/-- C3 amended: for every value and precision, round(x, p) = z / 10^p where z
is the nearest integer to x·10^p with ties toward positive infinity
(x·10^p - 1/2 < z ≤ x·10^p + 1/2, i.e. round-half-up on the scaled value);
in particular round(0.005, 2) = 0.01 while round(-0.005, 2) = 0. -/
theorem c3_round_nearest_ties_up (p : ℕ) (x : ℚ) :
    (∃ z : ℤ, round p x = (z : ℚ) / 10 ^ p ∧
      x * 10 ^ p - 1 / 2 < (z : ℚ) ∧ (z : ℚ) ≤ x * 10 ^ p + 1 / 2) ∧
    round 2 ((1 / 200) : ℚ) = 1 / 100 ∧ round 2 (-(1 / 200) : ℚ) = 0 := by
  refine ⟨⟨⌊x * 10 ^ p + 1 / 2⌋, round_eq_floor p x, ?_, Int.floor_le _⟩, ?_, ?_⟩
  · have := Int.lt_floor_add_one (x * 10 ^ p + 1 / 2)
    linarith
  · rw [round_eq_floor]
    norm_num
  · rw [round_eq_floor]
    norm_num

/-- C4 counterexample: at precision 0, four lines of 0.4 in distinct
categories make the aggregated finals sum to 0 while the rounded overall
total is 2, a discrepancy of two units of the precision (10^0 = 1). -/
theorem c4_sum_final_counterexample :
    ¬ (|((aggregatedData 0 c4Lines).map fun s => s.final).sum -
        round 0 ((c4Lines.map fun l => l.originalAmount).sum +
          (c4Lines.map fun l => l.adjustment).sum)| ≤ 1) := by
  simp [c4Lines, aggregatedData, aggStep, newEntry, updateFirst, applyLine, round_eq_floor]
  norm_num

/-- C4 amended: the sum of aggregated finals differs from
round(sum originalAmount + sum adjustment) by at most (n + 1) half-units of
the precision, n being the number of lines: each line final contributes up to
half a unit of rounding error and the outer rounding up to another half (the
claimed bound of one whole unit fails once four or more lines each err by
almost half a unit in the same direction). -/
theorem c4_sum_final_bound (p : ℕ) (data : List BudgetLine) :
    |((aggregatedData p data).map fun s => s.final).sum -
        round p ((data.map fun l => l.originalAmount).sum +
          (data.map fun l => l.adjustment).sum)| ≤
      ((data.length : ℚ) + 1) / (2 * 10 ^ p) := by
  have hsum := sum_final_aggregated p data
  have hT : (data.map fun l => l.originalAmount + l.adjustment).sum =
      (data.map fun l => l.originalAmount).sum + (data.map fun l => l.adjustment).sum :=
    sum_map_add _ _ data
  have h1 : |((data.map fun l => round p (l.originalAmount + l.adjustment)).sum) -
      (data.map fun l => l.originalAmount + l.adjustment).sum| ≤
      (data.length : ℚ) / (2 * 10 ^ p) := by
    have hb := abs_sum_round_sub_le p (data.map fun l => l.originalAmount + l.adjustment)
    rw [List.map_map] at hb
    simpa [Function.comp_def] using hb
  have h2 : |round p ((data.map fun l => l.originalAmount + l.adjustment).sum) -
      (data.map fun l => l.originalAmount + l.adjustment).sum| ≤ 1 / (2 * 10 ^ p) :=
    abs_round_sub_le p _
  rw [hsum, ← hT]
  calc |((data.map fun l => round p (l.originalAmount + l.adjustment)).sum) -
      round p ((data.map fun l => l.originalAmount + l.adjustment).sum)|
      ≤ |((data.map fun l => round p (l.originalAmount + l.adjustment)).sum) -
          (data.map fun l => l.originalAmount + l.adjustment).sum| +
        |(data.map fun l => l.originalAmount + l.adjustment).sum -
          round p ((data.map fun l => l.originalAmount + l.adjustment).sum)| :=
        abs_sub_le _ _ _
    _ ≤ (data.length : ℚ) / (2 * 10 ^ p) + 1 / (2 * 10 ^ p) := by
        refine add_le_add h1 ?_
        rw [abs_sub_comm]
        exact h2
    _ = ((data.length : ℚ) + 1) / (2 * 10 ^ p) := by ring

/-- C2: for every summary list, the waterfall output starts and ends with
`Total` points, every interior point is a `Step` whose
`[rangeMin, rangeMax] = [min prev new, max prev new]` for consecutive
re-rounded running totals starting at `totalOriginal`; the final `Total`
value is `totalOriginal + sum(all adjustments)` within rounding slack, and
exactly so whenever the adjustments are already rounded values — hence the
end value does not depend on the order the steps are processed in. -/
theorem c2_waterfall_sequence_invariant (p : ℕ) (summaries : List CategorySummary) :
    ∃ mid tEnd,
      getWaterfallData p summaries =
        WaterfallPoint.total "Start (Origineel)"
            (round p ((summaries.map fun s => s.original).sum)) ::
          mid ++ [WaterfallPoint.total "Eind (Nieuw)" tEnd] ∧
      stepChain p (round p ((summaries.map fun s => s.original).sum)) mid tEnd ∧
      |tEnd - (round p ((summaries.map fun s => s.original).sum) +
          (summaries.map fun s => s.adjustment).sum)| ≤
        ((summaries.filter fun d => decide (d.adjustment ≠ 0)).length : ℚ) /
          (2 * 10 ^ p) ∧
      ((∀ s ∈ summaries, round p s.adjustment = s.adjustment) →
        tEnd = round p ((summaries.map fun s => s.original).sum) +
          (summaries.map fun s => s.adjustment).sum) := by
  set t0 := round p ((summaries.map fun s => s.original).sum) with ht0def
  set steps := (summaries.filter fun d => decide (d.adjustment ≠ 0)).insertionSort adjGE
    with hstepsdef
  have hperm : steps.Perm (summaries.filter fun d => decide (d.adjustment ≠ 0)) :=
    List.perm_insertionSort adjGE _
  have hsumadj : (steps.map fun s => s.adjustment).sum =
      (summaries.map fun s => s.adjustment).sum := by
    rw [(hperm.map _).sum_eq, sum_adjustment_filter_ne_zero]
  have hlen : steps.length = (summaries.filter fun d => decide (d.adjustment ≠ 0)).length :=
    hperm.length_eq
  have ht0 : round p (summaries.foldl (fun acc cur => acc + cur.original) 0) = t0 := by
    rw [foldl_add_original, zero_add]
  refine ⟨(waterfallSteps p t0 steps).1, (waterfallSteps p t0 steps).2, ?_, ?_, ?_, ?_⟩
  · simp only [getWaterfallData]
    rw [ht0]
  · exact waterfallSteps_chain p steps t0
  · rw [← hsumadj, ← hlen]
    exact waterfallSteps_end_bound p steps t0
  · intro hall
    have hx : ∀ s ∈ steps, round p s.adjustment = s.adjustment := by
      intro s hs
      exact hall s (List.mem_of_mem_filter (hperm.mem_iff.mp hs))
    rw [waterfallSteps_end_exact p steps t0 (isExact_round p _) hx, hsumadj]

/-- Witness for C2 at a concrete one-step summary list. -/
theorem c2_waterfall_sequence_invariant_witness :
    ∃ mid tEnd,
      getWaterfallData 2 [⟨"A", 100, 105, 5⟩] =
        WaterfallPoint.total "Start (Origineel)"
            (round 2 ((([⟨"A", 100, 105, 5⟩] : List CategorySummary).map
              fun s => s.original).sum)) ::
          mid ++ [WaterfallPoint.total "Eind (Nieuw)" tEnd] ∧
      stepChain 2 (round 2 ((([⟨"A", 100, 105, 5⟩] : List CategorySummary).map
          fun s => s.original).sum)) mid tEnd ∧
      |tEnd - (round 2 ((([⟨"A", 100, 105, 5⟩] : List CategorySummary).map
          fun s => s.original).sum) +
          (([⟨"A", 100, 105, 5⟩] : List CategorySummary).map fun s => s.adjustment).sum)| ≤
        ((([⟨"A", 100, 105, 5⟩] : List CategorySummary).filter
            fun d => decide (d.adjustment ≠ 0)).length : ℚ) / (2 * 10 ^ 2) ∧
      ((∀ s ∈ ([⟨"A", 100, 105, 5⟩] : List CategorySummary),
          round 2 s.adjustment = s.adjustment) →
        tEnd = round 2 ((([⟨"A", 100, 105, 5⟩] : List CategorySummary).map
            fun s => s.original).sum) +
          (([⟨"A", 100, 105, 5⟩] : List CategorySummary).map fun s => s.adjustment).sum) :=
  c2_waterfall_sequence_invariant 2 [⟨"A", 100, 105, 5⟩]

/-- C5: on the worked example at precision 2, aggregation yields exactly
A:{150, 155, 5} and B:{200, 200, 0}; the delta view is exactly [A]; the
waterfall sequence is Start 350, one Step for A raising 350 to 355 with
adjustment +5, End 355. -/
theorem c5_worked_example :
    aggregatedData 2 exampleLines = [⟨"A", 150, 155, 5⟩, ⟨"B", 200, 200, 0⟩] ∧
    deltaData (aggregatedData 2 exampleLines) = [⟨"A", 150, 155, 5⟩] ∧
    getWaterfallData 2 (fullAggregated 2 exampleLines 0) =
      [WaterfallPoint.total "Start (Origineel)" 350,
        WaterfallPoint.step "A" 350 355 5,
        WaterfallPoint.total "Eind (Nieuw)" 355] := by
  have hagg : aggregatedData 2 exampleLines =
      [⟨"A", 150, 155, 5⟩, ⟨"B", 200, 200, 0⟩] := by
    simp [exampleLines, aggregatedData, aggStep, newEntry, updateFirst, applyLine,
      round_eq_floor]
    norm_num
  have hfull : fullAggregated 2 exampleLines 0 =
      [⟨"B", 200, 200, 0⟩, ⟨"A", 150, 155, 5⟩] := by
    rw [fullAggregated, aggregatedWithInvestment, if_neg (by norm_num), hagg]
    rw [sortByFinalDesc]
    simp [List.insertionSort, List.orderedInsert, finalGE]
    norm_num
  refine ⟨hagg, ?_, ?_⟩
  · rw [hagg, deltaData]
    have hfil : ([⟨"A", 150, 155, 5⟩, ⟨"B", 200, 200, 0⟩] :
        List CategorySummary).filter (fun d => decide (0 < |d.adjustment|)) =
        [⟨"A", 150, 155, 5⟩] := by
      simp [List.filter]
    rw [hfil]
    rfl
  · rw [hfull, getWaterfallData]
    have hfil : ([⟨"B", 200, 200, 0⟩, ⟨"A", 150, 155, 5⟩] :
        List CategorySummary).filter (fun d => decide (d.adjustment ≠ 0)) =
        [⟨"A", 150, 155, 5⟩] := by
      simp [List.filter]
    have hsort : (([⟨"A", 150, 155, 5⟩] : List CategorySummary).insertionSort adjGE) =
        [⟨"A", 150, 155, 5⟩] := rfl
    have hsum : round 2 ((([⟨"B", 200, 200, 0⟩, ⟨"A", 150, 155, 5⟩] :
        List CategorySummary).foldl (fun acc cur => acc + cur.original) 0)) = 350 := by
      rw [foldl_add_original, zero_add]
      rw [round_eq_floor]
      norm_num
    rw [hfil, hsort, hsum]
    have h355 : round 2 ((350 : ℚ) + 5) = 355 := by
      rw [round_eq_floor]
      norm_num
    simp only [waterfallSteps, h355]
    norm_num

/-- C6: the delta view consists of exactly the summaries with non-zero
adjustment (a permutation of the filtered input, so no summary is added,
dropped or altered), sorted descending by adjustment (positive first, most
negative last); no returned summary has adjustment 0, and the empty output is
a possible, valid result. -/
theorem c6_deltaData_contract (summaries : List CategorySummary) :
    (deltaData summaries).Perm
        (summaries.filter fun d => decide (0 < |d.adjustment|)) ∧
    List.Sorted adjGE (deltaData summaries) ∧
    (∀ x ∈ deltaData summaries, x.adjustment ≠ 0) ∧
    deltaData [⟨"A", 1, 1, 0⟩] = [] := by
  refine ⟨List.perm_insertionSort adjGE _, List.sorted_insertionSort adjGE _, ?_, ?_⟩
  · intro x hx
    have hmem : x ∈ summaries.filter fun d => decide (0 < |d.adjustment|) :=
      (List.mem_insertionSort adjGE).mp hx
    have hpos : 0 < |x.adjustment| := by
      simpa using (List.mem_filter.mp hmem).2
    exact abs_pos.mp hpos
  · have hfil : ([⟨"A", 1, 1, 0⟩] : List CategorySummary).filter
        (fun d => decide (0 < |d.adjustment|)) = [] := by
      simp [List.filter]
    rw [deltaData, hfil]
    rfl

/-- Witness for C6 at concrete inputs, including the empty result. -/
theorem c6_deltaData_contract_witness :
    (deltaData [⟨"A", 150, 155, 5⟩]).Perm
        (([⟨"A", 150, 155, 5⟩] : List CategorySummary).filter
          fun d => decide (0 < |d.adjustment|)) ∧
      deltaData [⟨"A", 1, 1, 0⟩] = [] :=
  ⟨(c6_deltaData_contract [⟨"A", 150, 155, 5⟩]).1,
    (c6_deltaData_contract [⟨"A", 150, 155, 5⟩]).2.2.2⟩

/-- C7: no non-positive magnitude is emitted to a renderer: every treemap
entry carries a positive `final` (entries are exactly the summaries with
positive final, sized by final), and every key in either stacked row maps to
a strictly positive amount; with unique summary names each row is exactly
the per-row filtering of the summaries (non-positive `original` omitted from
the original row only, non-positive `final` from the final row only). -/
theorem c7_renderer_positive_magnitudes (summaries : List CategorySummary) :
    (∀ e ∈ treemapData summaries, 0 < e.2 ∧ e.2 = e.1.final ∧ e.1 ∈ summaries) ∧
    (∀ d ∈ summaries, 0 < d.final → (d, d.final) ∈ treemapData summaries) ∧
    (∀ kv ∈ (getStackedData summaries).1, 0 < kv.2) ∧
    (∀ kv ∈ (getStackedData summaries).2, 0 < kv.2) ∧
    ((summaries.map fun d => d.name).Nodup →
      (getStackedData summaries).1 =
          (summaries.filter fun d => decide (0 < d.original)).map
            (fun d => (d.name, d.original)) ∧
        (getStackedData summaries).2 =
          (summaries.filter fun d => decide (0 < d.final)).map
            (fun d => (d.name, d.final))) := by
  refine ⟨?_, ?_, ?_, ?_, ?_⟩
  · intro e he
    obtain ⟨d, hd, rfl⟩ := List.mem_map.mp he
    obtain ⟨hmem, hpd⟩ := List.mem_filter.mp hd
    have hpos : 0 < d.final := by simpa using hpd
    exact ⟨hpos, rfl, hmem⟩
  · intro d hd hpos
    exact List.mem_map.mpr ⟨d, List.mem_filter.mpr ⟨hd, by simpa using hpos⟩, rfl⟩
  · rw [getStackedData, stackedFold_fst]
    exact rowFold_pos _ summaries [] (by intro kv hkv; cases hkv)
  · rw [getStackedData, stackedFold_snd]
    exact rowFold_pos _ summaries [] (by intro kv hkv; cases hkv)
  · intro hnd
    constructor
    · rw [getStackedData, stackedFold_fst]
      rw [rowFold_eq _ summaries [] hnd (by intro kv hkv; cases hkv)]
      rw [List.nil_append]
    · rw [getStackedData, stackedFold_snd]
      rw [rowFold_eq _ summaries [] hnd (by intro kv hkv; cases hkv)]
      rw [List.nil_append]

/-- Witness for C7: a summary kept in the original row but dropped from the
final row and the treemap, next to one dropped from the original row only. -/
theorem c7_renderer_positive_magnitudes_witness :
    (getStackedData [⟨"A", 5, -1, -6⟩, ⟨"B", -2, 3, 5⟩]).1 = [("A", 5)] ∧
      (getStackedData [⟨"A", 5, -1, -6⟩, ⟨"B", -2, 3, 5⟩]).2 = [("B", 3)] := by
  have h := (c7_renderer_positive_magnitudes [⟨"A", 5, -1, -6⟩, ⟨"B", -2, 3, 5⟩]).2.2.2.2
    (by simp)
  obtain ⟨h1, h2⟩ := h
  constructor
  · rw [h1]
    have hfil : ([⟨"A", 5, -1, -6⟩, ⟨"B", -2, 3, 5⟩] : List CategorySummary).filter
        (fun d => decide (0 < d.original)) = [⟨"A", 5, -1, -6⟩] := by
      simp [List.filter]
      norm_num
    rw [hfil]
    rfl
  · rw [h2]
    have hfil : ([⟨"A", 5, -1, -6⟩, ⟨"B", -2, 3, 5⟩] : List CategorySummary).filter
        (fun d => decide (0 < d.final)) = [⟨"B", -2, 3, 5⟩] := by
      simp [List.filter]
      norm_num
    rw [hfil]
    rfl

/-- C8 counterexample: an input line whose category is already named
"Nieuwe Investering", combined with a positive investment, produces two
summaries with the same name, so the derived list does not contain exactly
one summary per category name. -/
theorem c8_duplicate_name_counterexample :
    ¬ (((fullAggregated 0 [⟨"Nieuwe Investering", 1, 0⟩] 1).map
        fun s => s.name).Nodup) := by
  have heval : fullAggregated 0 [⟨"Nieuwe Investering", 1, 0⟩] 1 =
      [⟨"Nieuwe Investering", 1, 1, 0⟩, ⟨"Nieuwe Investering", 0, 1, 1⟩] := by
    rw [fullAggregated, aggregatedWithInvestment, if_pos (by norm_num)]
    have hagg : aggregatedData 0 [⟨"Nieuwe Investering", 1, 0⟩] =
        [⟨"Nieuwe Investering", 1, 1, 0⟩] := by
      simp [aggregatedData, aggStep, newEntry, round_eq_floor]
      norm_num
    rw [hagg]
    have hround : round 0 (1 : ℚ) = 1 := by
      rw [round_eq_floor]
      norm_num
    rw [hround, sortByFinalDesc]
    simp [List.insertionSort, List.orderedInsert, finalGE]
  rw [heval]
  simp

/-- C8 amended: provided no input line uses the reserved category name
"Nieuwe Investering" when a positive investment is supplied, the derived
summary list (with the synthetic investment entry appended when the
investment is positive) contains exactly one summary per category name:
the names are pairwise distinct, and a name occurs iff it is an input
category or the synthetic investment name. -/
theorem c8_unique_summary_per_name (p : ℕ) (data : List BudgetLine) (inv : ℚ)
    (h : 0 < inv → ¬ ("Nieuwe Investering" ∈ data.map fun l => l.category)) :
    ((fullAggregated p data inv).map fun s => s.name).Nodup ∧
    (∀ c, c ∈ (fullAggregated p data inv).map (fun s => s.name) ↔
      c ∈ data.map (fun l => l.category) ∨ (0 < inv ∧ c = "Nieuwe Investering")) := by
  have hperm : ((fullAggregated p data inv).map fun s => s.name).Perm
      ((aggregatedWithInvestment p data inv).map fun s => s.name) :=
    (List.perm_insertionSort finalGE _).map _
  have hbase : ∀ c, (c ∈ (aggregatedWithInvestment p data inv).map fun s => s.name) ↔
      c ∈ data.map (fun l => l.category) ∨ (0 < inv ∧ c = "Nieuwe Investering") := by
    intro c
    rw [aggregatedWithInvestment]
    by_cases hinv : 0 < inv
    · rw [if_pos hinv, List.map_append, List.mem_append, aggregatedData_names,
        mem_seenCategories]
      simp [hinv]
    · rw [if_neg hinv, aggregatedData_names, mem_seenCategories]
      simp [hinv]
  have hnd : ((aggregatedWithInvestment p data inv).map fun s => s.name).Nodup := by
    rw [aggregatedWithInvestment]
    by_cases hinv : 0 < inv
    · rw [if_pos hinv, List.map_append, aggregatedData_names]
      refine (nodup_seenCategories data).append (by simp) ?_
      intro a ha hmem
      simp only [List.map_cons, List.map_nil, List.mem_singleton] at hmem
      subst hmem
      exact h hinv (mem_seenCategories.mp ha)
    · rw [if_neg hinv, aggregatedData_names]
      exact nodup_seenCategories data
  refine ⟨hperm.nodup_iff.mpr hnd, ?_⟩
  intro c
  rw [hperm.mem_iff]
  exact hbase c

/-- Witness for C8 at a concrete line list and positive investment. -/
theorem c8_unique_summary_per_name_witness :
    ((fullAggregated 0 [⟨"A", 1, 0⟩] 1).map fun s => s.name).Nodup :=
  (c8_unique_summary_per_name 0 [⟨"A", 1, 0⟩] 1 (by simp)).1

/-- C9: the axis formatter returns "0" for zero; with the thousands flag it
always divides by 1000 and shows one decimal with a "k" suffix; otherwise it
uses one decimal with "M" from a million, zero decimals with "k" from a
thousand, and the plain integer string for small integral values; in
particular formatValue(1500, false) = "2k", formatValue(1500000, false) =
"1.5M", and formatValue(0, b) = "0" for either flag. -/
theorem c9_formatValue_contract (v : ℚ) (b : Bool) :
    (v = 0 → formatValue b v = "0") ∧
    (v ≠ 0 → b = true → formatValue b v = ratToFixed 1 (v / 1000) ++ "k") ∧
    (v ≠ 0 → b = false → 1000000 ≤ |v| →
      formatValue b v = ratToFixed 1 (v / 1000000) ++ "M") ∧
    (v ≠ 0 → b = false → |v| < 1000000 → 1000 ≤ |v| →
      formatValue b v = ratToFixed 0 (v / 1000) ++ "k") ∧
    (v ≠ 0 → b = false → |v| < 1000 → v.den = 1 → formatValue b v = toString v.num) ∧
    formatValue false 1500 = "2k" ∧
    formatValue false 1500000 = "1.5M" ∧
    formatValue b 0 = "0" := by
  refine ⟨?_, ?_, ?_, ?_, ?_, ?_, ?_, ?_⟩
  · intro hv
    rw [formatValue, if_pos hv]
  · intro hv hb
    subst hb
    rw [formatValue, if_neg hv]
    rfl
  · intro hv hb hM
    subst hb
    rw [formatValue, if_neg hv, if_neg (by simp), if_pos hM]
  · intro hv hb hM hk
    subst hb
    rw [formatValue, if_neg hv, if_neg (by simp), if_neg (not_le.mpr hM), if_pos hk]
  · intro hv hb hs hden
    subst hb
    rw [formatValue, if_neg hv, if_neg (by simp), if_neg (by
        refine not_le.mpr (lt_trans hs ?_)
        norm_num),
      if_neg (not_le.mpr hs)]
    exact ratToString_int v hden
  · rw [formatValue, if_neg (by norm_num), if_neg (by simp), if_neg (by norm_num),
      if_pos (by norm_num)]
    have h : ((1500 : ℚ) / 1000) = 3 / 2 := by norm_num
    rw [h, ratToFixed, if_neg (by norm_num)]
    have h2 : ((3 : ℚ) / 2 * 10 ^ 0 + 1 / 2).floor = 2 := by
      rw [ratFloor_eq]
      norm_num
    rw [h2]
    rfl
  · rw [formatValue, if_neg (by norm_num), if_neg (by simp), if_pos (by norm_num)]
    have h : ((1500000 : ℚ) / 1000000) = 3 / 2 := by norm_num
    rw [h, ratToFixed, if_neg (by norm_num)]
    have h2 : ((3 : ℚ) / 2 * 10 ^ 1 + 1 / 2).floor = 15 := by
      rw [ratFloor_eq]
      norm_num
    rw [h2]
    rfl
  · rw [formatValue, if_pos rfl]

/-- Witness for C9: the thousands branch and the integral raw branch at
concrete inputs, with every hypothesis discharged. -/
theorem c9_formatValue_contract_witness :
    formatValue false 2500 = ratToFixed 0 ((2500 : ℚ) / 1000) ++ "k" ∧
      formatValue false 7 = toString (7 : ℚ).num :=
  ⟨(c9_formatValue_contract 2500 false).2.2.2.1 (by norm_num) rfl (by norm_num)
      (by norm_num),
    (c9_formatValue_contract 7 false).2.2.2.2.1 (by norm_num) rfl (by norm_num) rfl⟩

end BudgetShifter
